import Mathlib

/-!
Verification of the linguistic pattern mining pipeline of src/main.py.

The program mines lemma n-grams and clause signatures from Russian sentences.
Its Annotation Provider (spaCy) is external: it is modelled here as a
parameter nlp : String → List Token supplying, per token, the attributes the
code reads (text, lemma_, pos_, dep_, i, head, is_punct, is_space, is_alpha),
with the dependency head as a position index.  Python dict and Counter are
modelled as association lists in insertion order, which matches dict ordering
and the stable ranking of Counter.most_common.  Python str.lower is modelled
for the ASCII and Cyrillic ranges, and the regular expression of
remove_gost_phrases is modelled by a direct backtracking matcher for that
exact pattern.
-/

/-- A token of one parse, as supplied by the Annotation Provider; mirrors the
spaCy attributes read by the code. -/
structure Token where
  text : String
  lemma_ : String
  pos_ : String
  dep_ : String
  i : Nat
  head : Nat
  is_punct : Bool
  is_space : Bool
  is_alpha : Bool
deriving DecidableEq

/-- Python str.lower restricted to the alphabets in play: ASCII A-Z and
Cyrillic А-Я and Ё. -/
def ruLowerChar (c : Char) : Char :=
  if 'A' ≤ c ∧ c ≤ 'Z' then Char.ofNat (c.toNat + 32)
  else if 0x410 ≤ c.toNat ∧ c.toNat ≤ 0x42F then Char.ofNat (c.toNat + 32)
  else if c.toNat = 0x401 then Char.ofNat 0x451
  else c

/-- Python str.lower on a whole string. -/
def pylower (s : String) : String :=
  String.mk (s.data.map ruLowerChar)

/-- Python regex whitespace class. -/
def isSpaceChar (c : Char) : Bool :=
  c == ' ' || c == '\t' || c == '\n' || c == '\r' || c.toNat == 11 || c.toNat == 12

/-- ASCII digit. -/
def isDigitChar (c : Char) : Bool :=
  '0' ≤ c && c ≤ '9'

/-- ASCII letter. -/
def isAsciiLetter (c : Char) : Bool :=
  ('a' ≤ c && c ≤ 'z') || ('A' ≤ c && c ≤ 'Z')

/-- Python regex word class (ASCII letters and digits, underscore, Cyrillic
letters): decides word boundaries. -/
def isWordChar (c : Char) : Bool :=
  isAsciiLetter c || isDigitChar c || c == '_' || (0x400 ≤ c.toNat && c.toNat ≤ 0x4FF)

/-- The letter class of the GOST pattern, with the IGNORECASE flag. -/
def gostLetter (c : Char) : Bool :=
  isAsciiLetter c || (0x410 ≤ c.toNat && c.toNat ≤ 0x44F)

/-- The dash class of the GOST pattern: hyphen or en dash. -/
def dashChar (c : Char) : Bool :=
  c == '-' || c.toNat == 0x2013

/-- A word boundary after a word character: end of input or a non word
character next. -/
def boundaryAfter (l : List Char) : Bool :=
  match l with
  | [] => true
  | c :: _ => !isWordChar c

/-- The optional dash-year part of the GOST pattern: whitespace, a dash,
whitespace, 2 to 4 digits; returns the remainder when it matches the whole
digit run. -/
def gostDashYear (l : List Char) : Option (List Char) :=
  match l.dropWhile isSpaceChar with
  | c :: rest =>
    if dashChar c then
      let l2 := rest.dropWhile isSpaceChar
      let ds := l2.takeWhile isDigitChar
      let l3 := l2.dropWhile isDigitChar
      if 2 ≤ ds.length && ds.length ≤ 4 then some l3 else none
    else none
  | [] => none

/-- After the 4 to 6 digit code: try the dash-year part greedily, falling back
to the bare code, with the final word boundary checked in each case. -/
def gostAfterDigits (l : List Char) : Option (List Char) :=
  match gostDashYear l with
  | some rest =>
    if boundaryAfter rest then some rest
    else if boundaryAfter l then some l else none
  | none => if boundaryAfter l then some l else none

/-- The optional code part after the literal гост: whitespace, a letter run,
whitespace, then 4 to 6 digits consuming the whole digit run. -/
def gostCode (l : List Char) : Option (List Char) :=
  let l1 := l.dropWhile isSpaceChar
  let l2 := l1.dropWhile gostLetter
  let l3 := l2.dropWhile isSpaceChar
  let ds := l3.takeWhile isDigitChar
  let l4 := l3.dropWhile isDigitChar
  if 4 ≤ ds.length && ds.length ≤ 6 then gostAfterDigits l4 else none

/-- Try to match the GOST pattern at the head of the input (the literal гост,
case-insensitive, then the optional code, then a word boundary); returns the
remainder after the match. -/
def matchGostPrefix (l : List Char) : Option (List Char) :=
  match l with
  | c1 :: c2 :: c3 :: c4 :: rest =>
    if ruLowerChar c1 == 'г' && ruLowerChar c2 == 'о' && ruLowerChar c3 == 'с' && ruLowerChar c4 == 'т' then
      match gostCode rest with
      | some r => some r
      | none => if boundaryAfter rest then some rest else none
    else none
  | _ => none

/-- Left to right scan of re.sub: at each position not preceded by a word
character, drop a match of the GOST pattern, otherwise keep the character.
The fuel argument is the remaining length; a match consumes at least four
characters, so fuel never runs out when initialised to the input length. -/
def gostScanAux : Nat → Bool → List Char → List Char
  | _, _, [] => []
  | 0, _, l => l
  | fuel + 1, prevWord, c :: rest =>
    if prevWord then
      c :: gostScanAux fuel (isWordChar c) rest
    else
      match matchGostPrefix (c :: rest) with
      | some r => gostScanAux fuel true r
      | none => c :: gostScanAux fuel (isWordChar c) rest

/-- Python str.strip: drop whitespace at both ends. -/
def pyStrip (l : List Char) : List Char :=
  ((l.dropWhile isSpaceChar).reverse.dropWhile isSpaceChar).reverse

/-- remove_gost_phrases of src/main.py: delete GOST constructions such as
ГОСТ Р 57528 - 2016 and the bare word ГОСТ, case-insensitively, then strip. -/
def remove_gost_phrases (text : String) : String :=
  String.mk (pyStrip (gostScanAux text.data.length false text.data))

/-- EXCLUDED_WORDS of src/main.py: prepositions, conjunctions and
regulatory-standard template words. -/
def EXCLUDED_WORDS : List String :=
  ["в", "на", "с", "по", "из", "у", "к", "от", "до", "за", "о", "об", "со", "изо",
   "и", "а", "но", "или", "либо", "что", "чтобы", "как", "потому", "также",
   "гост", "р", "стандарт", "iso", "ту", "ост", "снип", "сп", "гн", "рд", "санпин"]

/-- Counter increment on an association list kept in insertion order, as a
Python dict keeps keys. -/
def incr {K : Type} [DecidableEq K] (k : K) : List (K × Nat) → List (K × Nat)
  | [] => [(k, 1)]
  | (k2, c) :: rest => if k = k2 then (k2, c + 1) :: rest else (k2, c) :: incr k rest

/-- Insert a key-value pair only when the key is absent, as the Python idiom
if k not in d: d[k] = v (and dict.setdefault). -/
def setdefault {K V : Type} [DecidableEq K] (k : K) (v : V) : List (K × V) → List (K × V)
  | [] => [(k, v)]
  | (k2, v2) :: rest => if k = k2 then (k2, v2) :: rest else (k2, v2) :: setdefault k v rest

/-- Dictionary lookup with a default. -/
def lookupD {K V : Type} [DecidableEq K] (k : K) (d : V) : List (K × V) → V
  | [] => d
  | (k2, v2) :: rest => if k = k2 then v2 else lookupD k d rest

/-- The state of one mining pass: the frequency counter and the first-example
dictionary, both in insertion order. -/
structure MineState (K V : Type) where
  counts : List (K × Nat)
  examples : List (K × V)

/-- Keep x before y when the count of x is at least the count of y: the
insertion policy of a stable descending sort by count. -/
def cntGe {α : Type} (a b : α × Nat) : Bool :=
  decide (b.2 ≤ a.2)

/-- Stable insertion into a sorted list: x goes before the first y with
r x y. -/
def sinsert {α : Type} (r : α → α → Bool) (x : α) : List α → List α
  | [] => [x]
  | y :: ys => if r x y then x :: y :: ys else y :: sinsert r x ys

/-- Stable insertion sort. -/
def insSort {α : Type} (r : α → α → Bool) : List α → List α
  | [] => []
  | x :: xs => sinsert r x (insSort r xs)

/-- Counter.most_common(k): the k entries of largest count, stable sort, so
ties keep insertion order, as heapq.nlargest guarantees. -/
def most_common {K : Type} (k : Nat) (c : List (K × Nat)) : List (K × Nat) :=
  (insSort cntGe c).take k

/-- Position of the first occurrence of a key in a list. -/
def posIn {K : Type} [DecidableEq K] (k : K) : List K → Nat
  | [] => 0
  | x :: xs => if x = k then 0 else posIn k xs + 1

/-- The distinct elements of a list in order of first occurrence. -/
def dedupFirst {K : Type} [DecidableEq K] (l : List K) : List K :=
  l.foldl (fun acc x => if x ∈ acc then acc else acc ++ [x]) []

/-- Concatenation of the images of a list, in order. -/
def listJoinMap {α β : Type} (f : α → List β) : List α → List β
  | [] => []
  | x :: xs => f x ++ listJoinMap f xs

/-- The filtered lemma sequence of one sentence, as built in extract_ngrams
and find_sentence_with_ngram: lowercased lemmas of the alphabetic tokens whose
lowercased lemma is not excluded. -/
def lemmasOf (nlp : String → List Token) (txt : String) : List String :=
  ((nlp txt).filter fun t => t.is_alpha && !(EXCLUDED_WORDS.contains (pylower t.lemma_))).map
    fun t => pylower t.lemma_

/-- The parallel surface-text sequence of extract_ngrams, with the same
filter. -/
def surfacesOf (nlp : String → List Token) (txt : String) : List String :=
  ((nlp txt).filter fun t => t.is_alpha && !(EXCLUDED_WORDS.contains (pylower t.lemma_))).map
    fun t => pylower t.text

/-- One candidate window of extract_ngrams: re-check the window against
EXCLUDED_WORDS, then count it and record its first surface example. -/
def ngramBody (lemmas toks : List String) (n : Nat) (st : MineState (List String) String)
    (i : Nat) : MineState (List String) String :=
  let gl := (lemmas.drop i).take n
  let gt := (toks.drop i).take n
  if gl.any fun w => EXCLUDED_WORDS.contains w then st
  else ⟨incr gl st.counts, setdefault gl (String.intercalate " " gt) st.examples⟩

/-- The per-sentence loop of extract_ngrams: every contiguous window of
length n over the filtered lemma sequence. -/
def ngramStep (nlp : String → List Token) (n : Nat) (st : MineState (List String) String)
    (txt : String) : MineState (List String) String :=
  (List.range ((lemmasOf nlp txt).length + 1 - n)).foldl
    (ngramBody (lemmasOf nlp txt) (surfacesOf nlp txt) n) st

/-- extract_ngrams of src/main.py: count contiguous lemma n-grams over the
corpus and return the top_k with frequencies and first examples. -/
def extract_ngrams (nlp : String → List Token) (texts : List String) (n top_k : Nat) :
    List (List String × Nat × String) :=
  let st := texts.foldl (ngramStep nlp n) ⟨[], []⟩
  (most_common top_k st.counts).map fun p => (p.1, p.2, lookupD p.1 "" st.examples)

/-- The window body of extract_ngrams with the defensive re-check against
EXCLUDED_WORDS removed. -/
def ngramBodyNoRecheck (lemmas toks : List String) (n : Nat)
    (st : MineState (List String) String) (i : Nat) : MineState (List String) String :=
  let gl := (lemmas.drop i).take n
  let gt := (toks.drop i).take n
  ⟨incr gl st.counts, setdefault gl (String.intercalate " " gt) st.examples⟩

/-- The per-sentence loop of the variant without the re-check. -/
def ngramStepNoRecheck (nlp : String → List Token) (n : Nat)
    (st : MineState (List String) String) (txt : String) : MineState (List String) String :=
  (List.range ((lemmasOf nlp txt).length + 1 - n)).foldl
    (ngramBodyNoRecheck (lemmasOf nlp txt) (surfacesOf nlp txt) n) st

/-- extract_ngrams with the window re-check against EXCLUDED_WORDS removed. -/
def extract_ngrams_no_recheck (nlp : String → List Token) (texts : List String)
    (n top_k : Nat) : List (List String × Nat × String) :=
  let st := texts.foldl (ngramStepNoRecheck nlp n) ⟨[], []⟩
  (most_common top_k st.counts).map fun p => (p.1, p.2, lookupD p.1 "" st.examples)

/-- is_real_sentence of src/main.py: at least three tokens that are neither
punctuation nor whitespace, one of them a verb. -/
def is_real_sentence (nlp : String → List Token) (text : String) : Bool :=
  let tokens := (nlp text).filter fun t => !t.is_punct && !t.is_space
  decide (3 ≤ tokens.length) && tokens.any fun t => t.pos_ == "VERB"

/-- The dependency labels excluded from clause signatures. -/
def excluded_deps : List String :=
  ["det", "case", "punct"]

/-- The direct children of a root token (head reference equal to the root,
not the root itself), without punctuation and whitespace, sorted by position
as list.sort does (stably). -/
def tokenChildren (doc : List Token) (root_token : Token) : List Token :=
  insSort (fun a b => decide (a.i ≤ b.i))
    (doc.filter fun t => t.head == root_token.i && t.i != root_token.i && !t.is_punct && !t.is_space)

/-- clause_dep_signature of src/main.py: the dependency label of the root
followed by the labels of its direct children in sentence order, omitting
determiner, case and punctuation labels. -/
def clause_dep_signature (doc : List Token) (root_token : Token) : List String :=
  root_token.dep_ ::
    ((tokenChildren doc root_token).filter fun child => !(excluded_deps.contains child.dep_)).map
      fun child => child.dep_

/-- The root tokens scanned by top_syntactic_structures: tokens labelled ROOT
that are not punctuation. -/
def structRoots (doc : List Token) : List Token :=
  doc.filter fun t => t.dep_ == "ROOT" && !t.is_punct

/-- The per-sentence loop of top_syntactic_structures on the already stripped
sentence text. -/
def structStepStripped (nlp : String → List Token)
    (st : MineState (List String) (String × List Token)) (sent : String) :
    MineState (List String) (String × List Token) :=
  let doc := nlp sent
  (structRoots doc).foldl
    (fun st root =>
      let sig := clause_dep_signature doc root
      if sig.isEmpty || sig.length < 2 then st
      else ⟨incr sig st.counts, setdefault sig (sent, doc) st.examples⟩)
    st

/-- One sentence of top_syntactic_structures: strip GOST phrases first. -/
def structStep (nlp : String → List Token)
    (st : MineState (List String) (String × List Token)) (sent0 : String) :
    MineState (List String) (String × List Token) :=
  structStepStripped nlp st (remove_gost_phrases sent0)

/-- top_syntactic_structures of src/main.py: the top_n most frequent clause
signatures with their counts, first example sentence and its parse. -/
def top_syntactic_structures (nlp : String → List Token) (sentences : List String)
    (top_n : Nat) : List (List String × Nat × String × List Token) :=
  let st := sentences.foldl (structStep nlp) ⟨[], []⟩
  (most_common top_n st.counts).map fun p => (p.1, p.2, lookupD p.1 ("", []) st.examples)

/-- find_sentence_with_ngram of src/main.py: the first sentence whose
filtered lemma sequence (built from the stripped sentence) has a contiguous
window equal to the given lemma tuple; the stripped sentence is returned, and
none stands for the Python result None. -/
def find_sentence_with_ngram (nlp : String → List Token) (sentences : List String)
    (ngram_lemmas : List String) : Option String :=
  match sentences with
  | [] => none
  | s :: rest =>
    let sent := remove_gost_phrases s
    let lemmas := lemmasOf nlp sent
    let n := ngram_lemmas.length
    if (List.range (lemmas.length + 1 - n)).any
        (fun i => (lemmas.drop i).take n == ngram_lemmas) then
      some sent
    else
      find_sentence_with_ngram nlp rest ngram_lemmas

/-- The key sequence contains the given tuple as a contiguous window. -/
def containsSeq {α : Type} (key l : List α) : Prop :=
  ∃ s t, s ++ key ++ t = l

/-- All candidate windows of length n of one sentence, in order. -/
def windowsOf (nlp : String → List Token) (n : Nat) (txt : String) : List (List String) :=
  (List.range ((lemmasOf nlp txt).length + 1 - n)).map
    fun i => ((lemmasOf nlp txt).drop i).take n

/-- The corpus-ordered stream of counted n-gram keys: the windows of each
sentence that pass the re-check, sentences in corpus order. -/
def ngramKeyStream (nlp : String → List Token) (texts : List String) (n : Nat) :
    List (List String) :=
  listJoinMap (fun txt => (windowsOf nlp n txt).filter
    fun g => !(g.any fun w => EXCLUDED_WORDS.contains w)) texts

/-- The distinct counted n-gram keys in order of first occurrence across the
corpus. -/
def ngramSeen (nlp : String → List Token) (texts : List String) (n : Nat) :
    List (List String) :=
  dedupFirst (ngramKeyStream nlp texts n)

/-- The final n-gram counter of a corpus. -/
def ngramCounts (nlp : String → List Token) (texts : List String) (n : Nat) :
    List (List String × Nat) :=
  (texts.foldl (ngramStep nlp n) (⟨[], []⟩ : MineState (List String) String)).counts

/-- The counted clause signatures of one sentence, in order: signatures of the
non-punctuation roots of the stripped sentence, short ones dropped. -/
def structSigsOf (nlp : String → List Token) (sent0 : String) : List (List String) :=
  ((structRoots (nlp (remove_gost_phrases sent0))).map
      (clause_dep_signature (nlp (remove_gost_phrases sent0)))).filter
    fun g => !(g.isEmpty || g.length < 2)

/-- The corpus-ordered stream of counted clause signatures. -/
def structKeyStream (nlp : String → List Token) (sentences : List String) :
    List (List String) :=
  listJoinMap (structSigsOf nlp) sentences

/-- The distinct counted signatures in order of first occurrence. -/
def structSeen (nlp : String → List Token) (sentences : List String) : List (List String) :=
  dedupFirst (structKeyStream nlp sentences)

/-- The final signature counter of a corpus. -/
def structCounts (nlp : String → List Token) (sentences : List String) :
    List (List String × Nat) :=
  (sentences.foldl (structStep nlp) (⟨[], []⟩ : MineState (List String) (String × List Token))).counts

/-- A concrete Annotation Provider for counterexamples: on the sentence
гост ш it reports one alphabetic token with lemma ш, and an empty parse on
every other input, in particular on the stripped form ш. -/
def advNlp : String → List Token := fun s =>
  if s = "гост ш" then [⟨"ш", "ш", "NOUN", "ROOT", 0, 0, false, false, true⟩] else []

/-- A concrete constant Annotation Provider for witnesses: every input parses
to a two word clause with a ROOT noun and a verb child. -/
def wNlp : String → List Token := fun _ =>
  [⟨"Работа", "работа", "NOUN", "ROOT", 0, 0, false, false, true⟩,
   ⟨"идёт", "идти", "VERB", "nsubj", 1, 0, false, false, true⟩]

/-! ### Generic lemmas: stable sort, first-occurrence positions, counters -/

theorem mem_sinsert {α : Type} (r : α → α → Bool) (x a : α) (l : List α) :
    a ∈ sinsert r x l ↔ a = x ∨ a ∈ l := by
  induction l with
  | nil => simp [sinsert]
  | cons y ys ih =>
    by_cases h : r x y = true
    · simp [sinsert, h, List.mem_cons]
    · simp only [sinsert, if_neg h, List.mem_cons, ih]
      tauto

theorem mem_insSort {α : Type} (r : α → α → Bool) (a : α) (l : List α) :
    a ∈ insSort r l ↔ a ∈ l := by
  induction l with
  | nil => simp [insSort]
  | cons x xs ih =>
    simp only [insSort, mem_sinsert, ih, List.mem_cons]

theorem pairwise_sinsert_cnt {α : Type} (P : α × Nat → α × Nat → Prop) (x : α × Nat)
    (l : List (α × Nat))
    (hl : List.Pairwise (fun a b => b.2 < a.2 ∨ (b.2 = a.2 ∧ P a b)) l)
    (hx : ∀ y ∈ l, P x y) :
    List.Pairwise (fun a b => b.2 < a.2 ∨ (b.2 = a.2 ∧ P a b)) (sinsert cntGe x l) := by
  induction l with
  | nil => simp [sinsert]
  | cons y ys ih =>
    rcases List.pairwise_cons.mp hl with ⟨hy, hys⟩
    by_cases h : y.2 ≤ x.2
    · have hc : cntGe x y = true := by simp [cntGe, h]
      rw [sinsert, if_pos hc]
      refine List.pairwise_cons.mpr ⟨?_, hl⟩
      intro z hz
      rcases List.mem_cons.mp hz with rfl | hz2
      · by_cases hlt : z.2 < x.2
        · exact Or.inl hlt
        · exact Or.inr ⟨by omega, hx z (List.mem_cons_self z ys)⟩
      · have hle : z.2 ≤ y.2 := by rcases hy z hz2 with h2 | ⟨h2, _⟩ <;> omega
        by_cases hlt : z.2 < x.2
        · exact Or.inl hlt
        · exact Or.inr ⟨by omega, hx z (List.mem_cons_of_mem y hz2)⟩
    · have hc : cntGe x y = false := by simp [cntGe, h]
      rw [sinsert, if_neg (by simp [hc])]
      refine List.pairwise_cons.mpr ⟨?_, ih hys fun z hz => hx z (List.mem_cons_of_mem y hz)⟩
      intro z hz
      rcases (mem_sinsert cntGe x z ys).mp hz with rfl | hz2
      · exact Or.inl (by omega)
      · exact hy z hz2

theorem pairwise_insSort_cnt {α : Type} (P : α × Nat → α × Nat → Prop) (l : List (α × Nat))
    (hl : List.Pairwise P l) :
    List.Pairwise (fun a b => b.2 < a.2 ∨ (b.2 = a.2 ∧ P a b)) (insSort cntGe l) := by
  induction l with
  | nil => simp [insSort]
  | cons x xs ih =>
    rcases List.pairwise_cons.mp hl with ⟨hx, hxs⟩
    rw [insSort]
    exact pairwise_sinsert_cnt P x _ (ih hxs) fun y hy => hx y ((mem_insSort cntGe y xs).mp hy)

theorem posIn_getElem {K : Type} [DecidableEq K] (ks : List K) (h : ks.Nodup) (i : Nat)
    (hi : i < ks.length) : posIn ks[i] ks = i := by
  induction ks generalizing i with
  | nil => simp at hi
  | cons x xs ih =>
    rcases List.nodup_cons.mp h with ⟨hx, hxs⟩
    cases i with
    | zero => simp [posIn]
    | succ j =>
      have hj : j < xs.length := by simpa using hi
      have hg : (x :: xs)[j + 1] = xs[j] := by simp
      have hne : x ≠ xs[j] := fun he => hx (he ▸ List.getElem_mem hj)
      rw [hg, posIn, if_neg hne, ih hxs j hj]

theorem posIn_pairwise {K : Type} [DecidableEq K] (ks : List K) (h : ks.Nodup) :
    List.Pairwise (fun a b => posIn a ks < posIn b ks) ks := by
  rw [List.pairwise_iff_getElem]
  intro i j hi hj hij
  rw [posIn_getElem ks h i hi, posIn_getElem ks h j hj]
  exact hij

theorem foldl_proj {σ τ β : Type} (f : σ → τ) (op : σ → β → σ) (op2 : τ → β → τ)
    (h : ∀ s b, f (op s b) = op2 (f s) b) (l : List β) (s : σ) :
    f (l.foldl op s) = l.foldl op2 (f s) := by
  induction l generalizing s with
  | nil => rfl
  | cons b bs ih => simp only [List.foldl_cons]; rw [ih, h]

theorem foldl_guard_incr {K β : Type} [DecidableEq K] (g : β → K) (q : K → Bool)
    (l : List β) (c : List (K × Nat)) :
    l.foldl (fun c x => if q (g x) then c else incr (g x) c) c =
      ((l.map g).filter fun y => !(q y)).foldl (fun c k => incr k c) c := by
  induction l generalizing c with
  | nil => rfl
  | cons x xs ih =>
    simp only [List.foldl_cons, List.map_cons, List.filter_cons]
    by_cases h : q (g x) = true
    · rw [if_pos h, if_neg (by simp [h])]
      exact ih c
    · rw [if_neg h, if_pos (by simp [Bool.not_eq_true] at h; simp [h])]
      simp only [List.foldl_cons]
      exact ih (incr (g x) c)

theorem foldl_listJoinMap {α β σ : Type} (f : α → List β) (op : σ → β → σ) (l : List α)
    (s : σ) :
    (listJoinMap f l).foldl op s = l.foldl (fun s x => (f x).foldl op s) s := by
  induction l generalizing s with
  | nil => rfl
  | cons x xs ih => simp only [listJoinMap, List.foldl_append, List.foldl_cons, ih]

theorem mem_listJoinMap {α β : Type} (f : α → List β) (l : List α) (b : β) :
    b ∈ listJoinMap f l ↔ ∃ a ∈ l, b ∈ f a := by
  induction l with
  | nil => simp [listJoinMap]
  | cons x xs ih =>
    simp only [listJoinMap, List.mem_append, ih, List.mem_cons]
    constructor
    · rintro (h | ⟨a, ha, hb⟩)
      · exact ⟨x, Or.inl rfl, h⟩
      · exact ⟨a, Or.inr ha, hb⟩
    · rintro ⟨a, rfl | ha, hb⟩
      · exact Or.inl hb
      · exact Or.inr ⟨a, ha, hb⟩

theorem map_fst_incr {K : Type} [DecidableEq K] (k : K) (c : List (K × Nat)) :
    (incr k c).map Prod.fst =
      if k ∈ c.map Prod.fst then c.map Prod.fst else c.map Prod.fst ++ [k] := by
  induction c with
  | nil => simp [incr]
  | cons p rest ih =>
    obtain ⟨k2, v⟩ := p
    by_cases h : k = k2
    · simp [incr, h]
    · by_cases hm : k ∈ rest.map Prod.fst <;>
        simp [incr, h, hm, ih, List.mem_cons, Ne.symm h]

theorem map_fst_foldl_incr {K : Type} [DecidableEq K] (stream : List K) (c : List (K × Nat)) :
    (stream.foldl (fun c k => incr k c) c).map Prod.fst =
      stream.foldl (fun ks k => if k ∈ ks then ks else ks ++ [k]) (c.map Prod.fst) := by
  induction stream generalizing c with
  | nil => rfl
  | cons k ks ih => simp only [List.foldl_cons]; rw [ih, map_fst_incr]

theorem mem_dedup_foldl {K : Type} [DecidableEq K] (l : List K) (acc : List K) (a : K) :
    a ∈ l.foldl (fun acc x => if x ∈ acc then acc else acc ++ [x]) acc ↔ a ∈ acc ∨ a ∈ l := by
  induction l generalizing acc with
  | nil => simp
  | cons x xs ih =>
    simp only [List.foldl_cons]
    by_cases h : x ∈ acc
    · rw [if_pos h, ih]
      simp only [List.mem_cons]
      constructor
      · rintro (h1 | h1)
        · exact Or.inl h1
        · exact Or.inr (Or.inr h1)
      · rintro (h1 | rfl | h1)
        · exact Or.inl h1
        · exact Or.inl h
        · exact Or.inr h1
    · rw [if_neg h, ih]
      simp only [List.mem_append, List.mem_cons, List.mem_singleton]
      tauto

theorem nodup_dedup_foldl {K : Type} [DecidableEq K] (l : List K) (acc : List K)
    (h : acc.Nodup) :
    (l.foldl (fun acc x => if x ∈ acc then acc else acc ++ [x]) acc).Nodup := by
  induction l generalizing acc with
  | nil => exact h
  | cons x xs ih =>
    simp only [List.foldl_cons]
    by_cases hx : x ∈ acc
    · rw [if_pos hx]; exact ih acc h
    · rw [if_neg hx]
      refine ih _ (List.nodup_append.mpr ⟨h, List.nodup_singleton x, ?_⟩)
      intro a ha hb
      rw [List.mem_singleton] at hb
      exact hx (hb ▸ ha)

theorem mem_dedupFirst {K : Type} [DecidableEq K] (l : List K) (a : K) :
    a ∈ dedupFirst l ↔ a ∈ l := by
  unfold dedupFirst
  rw [mem_dedup_foldl]
  simp

theorem nodup_dedupFirst {K : Type} [DecidableEq K] (l : List K) : (dedupFirst l).Nodup :=
  nodup_dedup_foldl l [] List.nodup_nil

theorem containsSeq_slice {α : Type} (l : List α) (i n : Nat) :
    containsSeq ((l.drop i).take n) l :=
  ⟨l.take i, (l.drop i).drop n, by
    rw [List.append_assoc, List.take_append_drop, List.take_append_drop]⟩

theorem anyWindow_iff (key l : List String) :
    ((List.range (l.length + 1 - key.length)).any
      fun i => (l.drop i).take key.length == key) = true ↔ containsSeq key l := by
  rw [List.any_eq_true]
  constructor
  · rintro ⟨i, _, hs⟩
    rw [beq_iff_eq] at hs
    exact hs ▸ containsSeq_slice l i key.length
  · rintro ⟨s, t, rfl⟩
    refine ⟨s.length, List.mem_range.mpr ?_, ?_⟩
    · simp only [List.length_append]
      omega
    · rw [List.append_assoc, List.drop_left, List.take_left]
      exact beq_self_eq_true key

/-! ### Lemmas about the mining pipeline -/

theorem lemmasOf_not_excluded (nlp : String → List Token) (txt : String) (w : String)
    (hw : w ∈ lemmasOf nlp txt) : EXCLUDED_WORDS.contains w = false := by
  unfold lemmasOf at hw
  rcases List.mem_map.mp hw with ⟨t, ht, rfl⟩
  rcases List.mem_filter.mp ht with ⟨_, hpred⟩
  rw [Bool.and_eq_true, Bool.not_eq_true'] at hpred
  exact hpred.2

theorem window_guard_false (nlp : String → List Token) (txt : String) (n i : Nat) :
    ((((lemmasOf nlp txt).drop i).take n).any fun w => EXCLUDED_WORDS.contains w) = false := by
  rw [List.any_eq_false]
  intro w hw
  have hmem : w ∈ lemmasOf nlp txt :=
    List.drop_subset i (lemmasOf nlp txt) (List.take_subset n _ hw)
  rw [lemmasOf_not_excluded nlp txt w hmem]
  simp

theorem ngramBody_eq_norecheck (nlp : String → List Token) (txt : String) (n : Nat) :
    ngramBody (lemmasOf nlp txt) (surfacesOf nlp txt) n =
      ngramBodyNoRecheck (lemmasOf nlp txt) (surfacesOf nlp txt) n := by
  funext st i
  unfold ngramBody ngramBodyNoRecheck
  rw [if_neg (by rw [window_guard_false nlp txt n i]; exact Bool.false_ne_true)]

theorem ngramStep_eq_norecheck (nlp : String → List Token) (n : Nat) :
    ngramStep nlp n = ngramStepNoRecheck nlp n := by
  funext st txt
  unfold ngramStep ngramStepNoRecheck
  rw [ngramBody_eq_norecheck nlp txt n]

theorem extract_eq_norecheck (nlp : String → List Token) (texts : List String) (n k : Nat) :
    extract_ngrams nlp texts n k = extract_ngrams_no_recheck nlp texts n k := by
  unfold extract_ngrams extract_ngrams_no_recheck
  rw [ngramStep_eq_norecheck nlp n]

theorem counts_ngramStep (nlp : String → List Token) (n : Nat)
    (st : MineState (List String) String) (txt : String) :
    (ngramStep nlp n st txt).counts =
      ((windowsOf nlp n txt).filter fun g => !(g.any fun w => EXCLUDED_WORDS.contains w)).foldl
        (fun c k => incr k c) st.counts := by
  unfold ngramStep windowsOf
  rw [foldl_proj MineState.counts _
    (fun c i => if ((((lemmasOf nlp txt).drop i).take n).any fun w => EXCLUDED_WORDS.contains w)
      then c else incr (((lemmasOf nlp txt).drop i).take n) c)
    (by
      intro s i
      dsimp only [ngramBody]
      by_cases h : ((((lemmasOf nlp txt).drop i).take n).any fun w => EXCLUDED_WORDS.contains w) = true
      · rw [if_pos h, if_pos h]
      · rw [if_neg h, if_neg h])]
  exact foldl_guard_incr (fun i => ((lemmasOf nlp txt).drop i).take n)
    (fun g => g.any fun w => EXCLUDED_WORDS.contains w) _ st.counts

theorem ngramCounts_eq_stream (nlp : String → List Token) (texts : List String) (n : Nat) :
    ngramCounts nlp texts n = (ngramKeyStream nlp texts n).foldl (fun c k => incr k c) [] := by
  unfold ngramCounts ngramKeyStream
  rw [foldl_listJoinMap]
  rw [foldl_proj MineState.counts (ngramStep nlp n)
    (fun c txt => (((windowsOf nlp n txt).filter
      fun g => !(g.any fun w => EXCLUDED_WORDS.contains w)).foldl (fun c k => incr k c) c))
    (by intro s txt; exact counts_ngramStep nlp n s txt)]

theorem ngram_keys_eq_seen (nlp : String → List Token) (texts : List String) (n : Nat) :
    (ngramCounts nlp texts n).map Prod.fst = ngramSeen nlp texts n := by
  rw [ngramCounts_eq_stream, map_fst_foldl_incr]
  rfl

theorem counts_structStepStripped (nlp : String → List Token)
    (st : MineState (List String) (String × List Token)) (sent : String) :
    (structStepStripped nlp st sent).counts =
      (((structRoots (nlp sent)).map (clause_dep_signature (nlp sent))).filter
          fun g => !(g.isEmpty || g.length < 2)).foldl
        (fun c k => incr k c) st.counts := by
  unfold structStepStripped
  rw [foldl_proj MineState.counts _
    (fun c root => if ((clause_dep_signature (nlp sent) root).isEmpty ||
        (clause_dep_signature (nlp sent) root).length < 2)
      then c else incr (clause_dep_signature (nlp sent) root) c)
    (by
      intro s root
      dsimp only []
      by_cases h : ((clause_dep_signature (nlp sent) root).isEmpty ||
          decide ((clause_dep_signature (nlp sent) root).length < 2)) = true
      · rw [if_pos h, if_pos h]
      · rw [if_neg h, if_neg h])]
  exact foldl_guard_incr (clause_dep_signature (nlp sent))
    (fun g => g.isEmpty || g.length < 2) _ st.counts

theorem structCounts_eq_stream (nlp : String → List Token) (sentences : List String) :
    structCounts nlp sentences = (structKeyStream nlp sentences).foldl (fun c k => incr k c) [] := by
  unfold structCounts structKeyStream
  rw [foldl_listJoinMap]
  rw [foldl_proj MineState.counts (structStep nlp)
    (fun c sent0 => ((structSigsOf nlp sent0).foldl (fun c k => incr k c) c))
    (by
      intro s sent0
      unfold structStep structSigsOf
      exact counts_structStepStripped nlp s (remove_gost_phrases sent0))]

theorem struct_keys_eq_seen (nlp : String → List Token) (sentences : List String) :
    (structCounts nlp sentences).map Prod.fst = structSeen nlp sentences := by
  rw [structCounts_eq_stream, map_fst_foldl_incr]
  rfl

theorem extract_mem_key (nlp : String → List Token) (texts : List String) (n k : Nat)
    (g : List String) (c : Nat) (e : String)
    (h : (g, c, e) ∈ extract_ngrams nlp texts n k) :
    g ∈ (ngramCounts nlp texts n).map Prod.fst := by
  unfold extract_ngrams at h
  rcases List.mem_map.mp h with ⟨p, hp, he⟩
  have hg : p.1 = g := by
    have := congrArg Prod.fst he
    simpa using this
  have h1 : p ∈ insSort cntGe (ngramCounts nlp texts n) := by
    have := List.take_subset k _ hp
    exact this
  have h2 : p ∈ ngramCounts nlp texts n := (mem_insSort cntGe p _).mp h1
  exact hg ▸ List.mem_map_of_mem Prod.fst h2

theorem struct_mem_key (nlp : String → List Token) (sentences : List String) (tn : Nat)
    (g : List String) (c : Nat) (s : String) (d : List Token)
    (h : (g, c, s, d) ∈ top_syntactic_structures nlp sentences tn) :
    g ∈ (structCounts nlp sentences).map Prod.fst := by
  unfold top_syntactic_structures at h
  rcases List.mem_map.mp h with ⟨p, hp, he⟩
  have hg : p.1 = g := by
    have := congrArg Prod.fst he
    simpa using this
  have h1 : p ∈ insSort cntGe (structCounts nlp sentences) := List.take_subset tn _ hp
  have h2 : p ∈ structCounts nlp sentences := (mem_insSort cntGe p _).mp h1
  exact hg ▸ List.mem_map_of_mem Prod.fst h2

theorem ngram_key_in_stream (nlp : String → List Token) (texts : List String) (n : Nat)
    (g : List String) (h : g ∈ (ngramCounts nlp texts n).map Prod.fst) :
    g ∈ ngramKeyStream nlp texts n := by
  rw [ngram_keys_eq_seen] at h
  exact (mem_dedupFirst _ g).mp h

theorem ngram_key_origin (nlp : String → List Token) (texts : List String) (n : Nat)
    (g : List String) (h : g ∈ (ngramCounts nlp texts n).map Prod.fst) :
    ∃ txt ∈ texts, containsSeq g (lemmasOf nlp txt) := by
  have h2 := ngram_key_in_stream nlp texts n g h
  rcases (mem_listJoinMap _ texts g).mp h2 with ⟨txt, htxt, hg⟩
  rcases List.mem_filter.mp hg with ⟨hw, _⟩
  unfold windowsOf at hw
  rcases List.mem_map.mp hw with ⟨i, _, rfl⟩
  exact ⟨txt, htxt, containsSeq_slice _ i n⟩

theorem ngram_key_guard (nlp : String → List Token) (texts : List String) (n : Nat)
    (g : List String) (h : g ∈ (ngramCounts nlp texts n).map Prod.fst) :
    (g.any fun w => EXCLUDED_WORDS.contains w) = false := by
  have h2 := ngram_key_in_stream nlp texts n g h
  rcases (mem_listJoinMap _ texts g).mp h2 with ⟨txt, _, hg⟩
  rcases List.mem_filter.mp hg with ⟨_, hq⟩
  rw [Bool.not_eq_true'] at hq
  exact hq

theorem struct_key_long (nlp : String → List Token) (sentences : List String)
    (g : List String) (h : g ∈ (structCounts nlp sentences).map Prod.fst) :
    2 ≤ g.length := by
  rw [struct_keys_eq_seen] at h
  have h2 : g ∈ structKeyStream nlp sentences := (mem_dedupFirst _ g).mp h
  rcases (mem_listJoinMap _ sentences g).mp h2 with ⟨sent0, _, hg⟩
  rcases List.mem_filter.mp hg with ⟨_, hq⟩
  rw [Bool.not_eq_true'] at hq
  rcases Bool.or_eq_false_iff.mp hq with ⟨_, hlen⟩
  have : ¬ (g.length < 2) := by simpa using hlen
  omega

theorem find_some_of_contains (nlp : String → List Token) (key : List String)
    (ss : List String) (s : String) (hs : s ∈ ss)
    (hc : containsSeq key (lemmasOf nlp (remove_gost_phrases s))) :
    find_sentence_with_ngram nlp ss key ≠ none := by
  induction ss with
  | nil => cases hs
  | cons s0 rest ih =>
    unfold find_sentence_with_ngram
    by_cases hb : ((List.range ((lemmasOf nlp (remove_gost_phrases s0)).length + 1 -
        key.length)).any fun i =>
          ((lemmasOf nlp (remove_gost_phrases s0)).drop i).take key.length == key) = true
    · simp [hb]
    · rcases List.mem_cons.mp hs with rfl | hs2
      · exact absurd ((anyWindow_iff key _).mpr hc) hb
      · simp only [if_neg hb]
        exact ih hs2

theorem pairwise_most_common {K : Type} [DecidableEq K] (counts : List (K × Nat))
    (seen : List K) (hkeys : counts.map Prod.fst = seen) (hnod : seen.Nodup) (k : Nat) :
    List.Pairwise (fun a b => b.2 ≤ a.2 ∧ (a.2 = b.2 → posIn a.1 seen < posIn b.1 seen))
      (most_common k counts) := by
  have hp : List.Pairwise (fun a b : K × Nat => posIn a.1 seen < posIn b.1 seen) counts := by
    have h0 : List.Pairwise (fun a b => posIn a seen < posIn b seen) (counts.map Prod.fst) := by
      rw [hkeys]
      exact posIn_pairwise seen hnod
    exact (@List.pairwise_map _ _ Prod.fst (fun a b => posIn a seen < posIn b seen) counts).mp h0
  have hq := pairwise_insSort_cnt _ counts hp
  unfold most_common
  refine (List.Pairwise.sublist (List.take_sublist k (insSort cntGe counts)) hq).imp ?_
  intro a b hab
  rcases hab with h1 | ⟨h1, h2⟩
  · exact ⟨Nat.le_of_lt h1, fun he => by omega⟩
  · exact ⟨Nat.le_of_eq h1, fun _ => h2⟩

/-! ### The claims -/

/-- Claim C2 (confirmed).  find_sentence_with_ngram returns some r exactly
when the corpus splits as pre ++ s :: post with s the first sentence whose
filtered lemma sequence (built from the stripped sentence) contains
lemma_key as a contiguous window, and r is the text of that sentence as
pre-stripped by the regulatory-phrase preprocessing step; it returns none
(the Python None, the not-found sentinel) exactly when no sentence matches,
and being a total function it never raises an error. -/
theorem locator_first_match (nlp : String → List Token) (ss : List String)
    (key : List String) :
    (∀ r : String, find_sentence_with_ngram nlp ss key = some r ↔
      ∃ pre s post, ss = pre ++ s :: post ∧ r = remove_gost_phrases s ∧
        containsSeq key (lemmasOf nlp (remove_gost_phrases s)) ∧
        ∀ s2 ∈ pre, ¬ containsSeq key (lemmasOf nlp (remove_gost_phrases s2)))
    ∧ (find_sentence_with_ngram nlp ss key = none ↔
      ∀ s ∈ ss, ¬ containsSeq key (lemmasOf nlp (remove_gost_phrases s))) := by
  induction ss with
  | nil =>
    refine ⟨fun r => ?_, by simp [find_sentence_with_ngram]⟩
    simp only [find_sentence_with_ngram]
    constructor
    · intro h
      exact absurd h (by simp)
    · rintro ⟨pre, s, post, heq, -⟩
      exact absurd heq.symm (by simp)
  | cons s0 rest ih =>
    by_cases hC : containsSeq key (lemmasOf nlp (remove_gost_phrases s0))
    · have hb : ((List.range ((lemmasOf nlp (remove_gost_phrases s0)).length + 1 -
          key.length)).any fun i =>
            ((lemmasOf nlp (remove_gost_phrases s0)).drop i).take key.length == key) = true :=
        (anyWindow_iff key _).mpr hC
      constructor
      · intro r
        constructor
        · intro h
          simp only [find_sentence_with_ngram] at h
          rw [if_pos hb] at h
          exact ⟨[], s0, rest, rfl, (Option.some.inj h).symm, hC, by simp⟩
        · rintro ⟨pre, s, post, heq, hr, hcs, hpre⟩
          simp only [find_sentence_with_ngram]
          rw [if_pos hb]
          cases pre with
          | nil =>
            injection heq with h1 h2
            rw [hr, ← h1]
          | cons p pre2 =>
            injection heq with h1 h2
            exact absurd hC (hpre s0 (by rw [h1]; exact List.mem_cons_self p pre2))
      · constructor
        · intro h
          simp only [find_sentence_with_ngram] at h
          rw [if_pos hb] at h
          cases h
        · intro hall
          exact absurd hC (hall s0 (List.mem_cons_self s0 rest))
    · have hne : ¬ (((List.range ((lemmasOf nlp (remove_gost_phrases s0)).length + 1 -
          key.length)).any fun i =>
            ((lemmasOf nlp (remove_gost_phrases s0)).drop i).take key.length == key) = true) :=
        fun h => hC ((anyWindow_iff key _).mp h)
      constructor
      · intro r
        simp only [find_sentence_with_ngram]
        rw [if_neg hne, ih.1 r]
        constructor
        · rintro ⟨pre2, s, post2, heq, hr, hcs, hpre⟩
          refine ⟨s0 :: pre2, s, post2, ?_, hr, hcs, ?_⟩
          · rw [List.cons_append, heq]
          · intro s2 hs2
            rcases List.mem_cons.mp hs2 with rfl | hs3
            · exact hC
            · exact hpre s2 hs3
        · rintro ⟨pre, s, post, heq, hr, hcs, hpre⟩
          cases pre with
          | nil =>
            injection heq with h1 h2
            exact absurd (h1.symm ▸ hcs) hC
          | cons p pre2 =>
            injection heq with h1 h2
            exact ⟨pre2, s, post, h2, hr, hcs,
              fun s2 hs2 => hpre s2 (List.mem_cons_of_mem p hs2)⟩
      · simp only [find_sentence_with_ngram]
        rw [if_neg hne, ih.2]
        constructor
        · intro h s hs
          rcases List.mem_cons.mp hs with rfl | hs2
          · exact hC
          · exact h s hs2
        · intro h s hs
          exact h s (List.mem_cons_of_mem s0 hs)

/-- Claim C1 (corrected), counterexample.  The round trip fails as universally
stated: extract_ngrams works on the raw sentence while
find_sentence_with_ngram strips regulatory phrases first and re-parses, so a
provider that parses the raw sentence гост ш to a token with lemma ш but
parses the stripped residue ш to nothing yields a record whose key the
locator cannot find. -/
theorem ngram_roundtrip_counterexample :
    (["ш"], 1, "ш") ∈ extract_ngrams advNlp ["гост ш"] 1 1 ∧
    find_sentence_with_ngram advNlp ["гост ш"] ["ш"] = none := by
  constructor
  · decide
  · decide

/-- Claim C1 (corrected), amended.  When stripping regulatory phrases does not
change any corpus sentence filtered lemma sequence (in particular when no
sentence carries a GOST phrase), every lemma_key of a record returned by
extract_ngrams is found again by find_sentence_with_ngram on the same corpus:
the result is never the not-found sentinel none. -/
theorem ngram_roundtrip_of_stable_strip (nlp : String → List Token) (texts : List String)
    (n k : Nat)
    (hstable : ∀ s ∈ texts, lemmasOf nlp (remove_gost_phrases s) = lemmasOf nlp s)
    (g : List String) (c : Nat) (e : String)
    (hrec : (g, c, e) ∈ extract_ngrams nlp texts n k) :
    find_sentence_with_ngram nlp texts g ≠ none := by
  have hkey := extract_mem_key nlp texts n k g c e hrec
  rcases ngram_key_origin nlp texts n g hkey with ⟨txt, htxt, hcs⟩
  rw [← hstable txt htxt] at hcs
  exact find_some_of_contains nlp g texts txt htxt hcs

/-- Witness for the amended claim C1, at a concrete provider and corpus. -/
theorem ngram_roundtrip_of_stable_strip_witness :
    find_sentence_with_ngram wNlp ["x"] ["работа", "идти"] ≠ none :=
  ngram_roundtrip_of_stable_strip wNlp ["x"] 2 3 (fun s _ => rfl)
    ["работа", "идти"] 1 "работа идёт" (by decide)

/-- Claim C3 (corrected), counterexample.  There is no corpus on which
removing the window re-check changes the output of extract_ngrams: the lemma
sequence was already filtered against ExclusionSet, so the re-check never
rejects a window. -/
theorem recheck_removal_never_changes_output :
    ¬ ∃ (nlp : String → List Token) (texts : List String) (n k : Nat),
      extract_ngrams nlp texts n k ≠ extract_ngrams_no_recheck nlp texts n k := by
  rintro ⟨nlp, texts, n, k, h⟩
  exact h (extract_eq_norecheck nlp texts n k)

/-- Claim C3 (corrected), amended.  extract_ngrams with the re-check is
extensionally equal to the variant without it on every corpus: the re-check
is redundant, not required for correctness. -/
theorem recheck_equivalence (nlp : String → List Token) (texts : List String) (n k : Nat) :
    extract_ngrams nlp texts n k = extract_ngrams_no_recheck nlp texts n k :=
  extract_eq_norecheck nlp texts n k

/-- Claim C4 (confirmed).  is_real_sentence is true exactly when the parse
has at least three tokens that are neither punctuation nor whitespace and one
of the retained tokens is a verb; in particular it is false whenever there
are fewer than three such tokens. -/
theorem sentence_filter_iff (nlp : String → List Token) (text : String) :
    (is_real_sentence nlp text = true ↔
      3 ≤ ((nlp text).filter fun t => !t.is_punct && !t.is_space).length ∧
      ∃ t ∈ (nlp text).filter fun t => !t.is_punct && !t.is_space, t.pos_ = "VERB")
    ∧ (((nlp text).filter fun t => !t.is_punct && !t.is_space).length < 3 →
      is_real_sentence nlp text = false) := by
  constructor
  · simp [is_real_sentence, List.any_eq_true, Bool.and_eq_true, decide_eq_true_eq, beq_iff_eq]
    tauto
  · intro h
    have h2 : ¬ (3 ≤ ((nlp text).filter fun t => !t.is_punct && !t.is_space).length) := by
      omega
    simp [is_real_sentence, h2]

/-- Claim C5 (confirmed).  Every lemma_key returned by extract_ngrams has no
element in EXCLUDED_WORDS. -/
theorem ngram_keys_never_excluded (nlp : String → List Token) (texts : List String)
    (n k : Nat) (g : List String) (c : Nat) (e : String)
    (hrec : (g, c, e) ∈ extract_ngrams nlp texts n k) (w : String) (hw : w ∈ g) :
    EXCLUDED_WORDS.contains w = false := by
  have hkey := extract_mem_key nlp texts n k g c e hrec
  have hg := ngram_key_guard nlp texts n g hkey
  have hthis := List.any_eq_false.mp hg w hw
  rw [Bool.not_eq_true] at hthis
  exact hthis

/-- Witness for claim C5, at a concrete provider and corpus. -/
theorem ngram_keys_never_excluded_witness :
    (["работа", "идти"], 1, "работа идёт") ∈ extract_ngrams wNlp ["x"] 2 3 ∧
    EXCLUDED_WORDS.contains "работа" = false :=
  ⟨by decide, ngram_keys_never_excluded wNlp ["x"] 2 3 ["работа", "идти"] 1 "работа идёт"
    (by decide) "работа" (by decide)⟩

/-- Claim C6 (confirmed).  The records of extract_ngrams and of
top_syntactic_structures are ordered by descending count, and on equal counts
the key whose first counted occurrence comes earlier in corpus order (the
position in the first-seen key list) ranks higher. -/
theorem ranking_by_count_then_first_seen (nlp : String → List Token) (texts : List String)
    (n k : Nat) (ss : List String) (tn : Nat) :
    List.Pairwise (fun a b => b.2.1 ≤ a.2.1 ∧ (a.2.1 = b.2.1 →
        posIn a.1 (ngramSeen nlp texts n) < posIn b.1 (ngramSeen nlp texts n)))
      (extract_ngrams nlp texts n k)
    ∧ List.Pairwise (fun a b => b.2.1 ≤ a.2.1 ∧ (a.2.1 = b.2.1 →
        posIn a.1 (structSeen nlp ss) < posIn b.1 (structSeen nlp ss)))
      (top_syntactic_structures nlp ss tn) := by
  constructor
  · have h := pairwise_most_common (ngramCounts nlp texts n) (ngramSeen nlp texts n)
      (ngram_keys_eq_seen nlp texts n) (nodup_dedupFirst _) k
    simp only [extract_ngrams]
    exact List.pairwise_map.mpr h
  · have h := pairwise_most_common (structCounts nlp ss) (structSeen nlp ss)
      (struct_keys_eq_seen nlp ss) (nodup_dedupFirst _) tn
    simp only [top_syntactic_structures]
    exact List.pairwise_map.mpr h

/-- Claim C7 (confirmed).  Every signature returned by
top_syntactic_structures has at least two labels: shorter candidates are
skipped before counting, without an error. -/
theorem structure_signatures_min_two (nlp : String → List Token) (ss : List String)
    (tn : Nat) (g : List String) (c : Nat) (s : String) (d : List Token)
    (hrec : (g, c, s, d) ∈ top_syntactic_structures nlp ss tn) :
    2 ≤ g.length :=
  struct_key_long nlp ss g (struct_mem_key nlp ss tn g c s d hrec)

/-- Witness for claim C7, at a concrete provider and corpus. -/
theorem structure_signatures_min_two_witness :
    (["ROOT", "nsubj"], 1, "Работа идёт.", wNlp "Работа идёт.") ∈
      top_syntactic_structures wNlp ["Работа идёт."] 3 ∧
    2 ≤ (["ROOT", "nsubj"] : List String).length :=
  ⟨by decide, structure_signatures_min_two wNlp ["Работа идёт."] 3 ["ROOT", "nsubj"] 1
    "Работа идёт." (wNlp "Работа идёт.") (by decide)⟩

/-- Claim C8 (confirmed).  Regulatory-phrase stripping turns the scenario B
sentence into the residue регулирует процесс., and the structure miner on the
original corpus behaves exactly as on the residue corpus, for every
Annotation Provider: no signature is influenced by the removed GOST span. -/
theorem gost_strip_scenario :
    remove_gost_phrases "ГОСТ Р 57528-2016 регулирует процесс." = "регулирует процесс." ∧
    ∀ (nlp : String → List Token) (top_n : Nat),
      top_syntactic_structures nlp ["ГОСТ Р 57528-2016 регулирует процесс."] top_n =
        top_syntactic_structures nlp ["регулирует процесс."] top_n := by
  have h1 : remove_gost_phrases "ГОСТ Р 57528-2016 регулирует процесс." =
      "регулирует процесс." := by decide
  have h2 : remove_gost_phrases "регулирует процесс." = "регулирует процесс." := by decide
  refine ⟨h1, fun nlp top_n => ?_⟩
  simp only [top_syntactic_structures, List.foldl_cons, List.foldl_nil, structStep, h1, h2]

/-- Claim C9 (confirmed).  On the empty corpus both miners return the empty
list, not an error. -/
theorem empty_corpus_empty_results (nlp : String → List Token) (n k tn : Nat) :
    extract_ngrams nlp [] n k = [] ∧ top_syntactic_structures nlp [] tn = [] := by
  constructor
  · simp [extract_ngrams, most_common, insSort]
  · simp [top_syntactic_structures, most_common, insSort]

/-- Claim C10 (confirmed).  On a non-empty corpus the empty lemma_key matches
trivially in the first sentence, whose stripped text is returned: the
zero-length window succeeds even when the filtered lemma sequence is empty. -/
theorem empty_key_returns_first_sentence (nlp : String → List Token) (s : String)
    (rest : List String) :
    find_sentence_with_ngram nlp (s :: rest) [] = some (remove_gost_phrases s) := by
  have hb : ((List.range ((lemmasOf nlp (remove_gost_phrases s)).length + 1 - 0)).any
      fun i => ((lemmasOf nlp (remove_gost_phrases s)).drop i).take 0 ==
        ([] : List String)) = true := by
    rw [List.any_eq_true]
    refine ⟨0, List.mem_range.mpr (by omega), by simp⟩
  simp only [find_sentence_with_ngram, List.length_nil]
  rw [if_pos hb]
